import Mathlib

/-!
# mmotcw: aggregation, voting and thumbnail engine

A shallow embedding of `src/main.go` (package `main`) together with theorems about it.

Conventions of the embedding

* Go `string` is Lean `String`; byte slicing is modelled on characters, which agrees
  with Go whenever the sliced part is ASCII (the `CW_` folder tag, file extensions).
* Go `int` is `Int`.  The counters of this program (vote counts, folder numbers) never
  approach `2^63`, so no wrap-around is modelled for them.
* Functions that may return a Go `error` or abort with a run-time panic return `Result`.
* The file system, the image decoder and the CSV reader are library code; they appear
  as oracle fields of `Env`.  `log.Println` output is not modelled.
* `float64` and `float32` arithmetic is modelled exactly (IEEE 754 round-to-nearest-even)
  on scaled natural numbers, see the section on binary floating point.
* A Go `map[string]int` is an association list with distinct keys; the unspecified
  iteration order of `range` is an explicit argument.
-/

namespace Mmotcw

/-! ## Results of fallible code -/

/-- Outcome of a Go function: a value, a returned `error`, or a run-time panic. -/
inductive Result (α : Type) where
  | ok (v : α)
  | err (e : String)
  | panic (msg : String)
  deriving Repr, DecidableEq

namespace Result

/-- Sequencing: errors and panics propagate. -/
def bind {α β : Type} (r : Result α) (f : α → Result β) : Result β :=
  match r with
  | ok v => f v
  | err e => err e
  | panic m => panic m

end Result

/-! ## `sort.Slice` -/

/-- Insertion of `x` into a list ordered by `less`: `x` goes before the first element
that is not `less` than it. -/
def insertBy {α : Type} (less : α → α → Bool) (x : α) : List α → List α
  | [] => [x]
  | y :: ys => if less y x then y :: insertBy less x ys else x :: y :: ys

/-- Library model of Go `sort.Slice(s, less)`: a rearrangement of `s` in which no later
element is `less` than an earlier one.  (Go does not promise stability; nothing below
depends on the order of elements that compare equal.) -/
def sortSlice {α : Type} (less : α → α → Bool) (s : List α) : List α :=
  s.foldr (insertBy less) []

/-! ## Votes -/

/-- Go: `type Vote struct { FileName string; Votes int; Path string }`. -/
structure Vote where
  FileName : String
  Votes : Int
  Path : String
  deriving Repr, DecidableEq

/-- Go `map[string]V`, as its list of entries (keys distinct). -/
abbrev GoMap (β : Type) := List (String × β)

/-- Go `v, ok := m[k]`: the value when the key is present. -/
def GoMap.get? {β : Type} (m : GoMap β) (k : String) : Option β :=
  m.lookup k

/-- Go `m[k] = v`: overwrite the entry of `k`, or add one. -/
def GoMap.set {β : Type} : GoMap β → String → β → GoMap β
  | [], k, v => [(k, v)]
  | (k', v') :: m, k, v => if k' = k then (k, v) :: m else (k', v') :: GoMap.set m k v

/-- Go `map[string]int`. -/
abbrev VoteMap := GoMap Int

/-- Go `votes[k]`: the zero value when the key is absent. -/
def VoteMap.get (m : VoteMap) (k : String) : Int :=
  (m.lookup k).getD 0

/-- Go `sortVotes(votes)`.  `rangeOrder votes` is the sequence in which
`for k, v := range votes` visits the entries. -/
def sortVotes (rangeOrder : VoteMap → List (String × Int)) (votes : VoteMap) : List Vote :=
  let ss := rangeOrder votes
  let ss := sortSlice (fun a b => decide (a.2 > b.2)) ss
  let ranked := ss.map (fun kv => kv.1)
  ranked.map (fun key => { FileName := key, Votes := votes.get key, Path := "" })

/-- The inner loop of `parseVotesFile`: `for _, maimai := range line[1:]`. -/
def countFields (votes : VoteMap) : List String → VoteMap
  | [] => votes
  | maimai :: rest =>
    match votes.get? maimai with
    | some count => countFields (votes.set maimai (count + 1)) rest
    | none => countFields (votes.set maimai 1) rest

/-- The outer loop of `parseVotesFile`: `for _, line := range lines`.  `line[1:]` of a
record without fields is a slice-bounds panic. -/
def countLines (votes : VoteMap) : List (List String) → Result VoteMap
  | [] => .ok votes
  | [] :: _ => .panic "runtime error: slice bounds out of range [1:0]"
  | (_ :: fields) :: rest => countLines (countFields votes fields) rest

/-- Go `parseVotesFile(file)`.  `readAll` is what `csv.Reader.ReadAll` (separator `:`,
any number of fields per record) returned for the file. -/
def parseVotesFile (rangeOrder : VoteMap → List (String × Int))
    (readAll : Result (List (List String))) : Result (List Vote) :=
  match readAll with
  | .err e => .err e
  | .panic m => .panic m
  | .ok lines =>
    match countLines [] lines with
    | .ok votes => .ok (sortVotes rangeOrder votes)
    | .err e => .err e
    | .panic m => .panic m

/-! ## Strings and paths (Unix) -/

/-- Go `s[n:]` on a string: a slice-bounds panic when `n` exceeds the length. -/
def sliceFrom (s : String) (n : Nat) : Result String :=
  if n ≤ s.length then .ok (s.drop n)
  else .panic ("runtime error: slice bounds out of range [" ++ toString n ++ ":" ++ toString s.length ++ "]")

/-- Fields of a character sequence separated by `sep`; always at least one field. -/
def splitChars (sep : Char) : List Char → List (List Char)
  | [] => [[]]
  | c :: cs =>
    if c = sep then [] :: splitChars sep cs
    else
      match splitChars sep cs with
      | f :: fs => (c :: f) :: fs
      | [] => [[c]]

/-- Go `strings.Split(s, sep)` for a one-character separator. -/
def stringsSplit (s : String) (sep : Char) : List String :=
  (splitChars sep s.data).map String.mk

/-- Go `strings.HasPrefix`. -/
def stringsHasPrefix (s : String) (p : String) : Bool :=
  p.data.isPrefixOf s.data

/-- Go `filepath.Base`: the last element of the path, trailing slashes removed. -/
def filepathBase (path : String) : String :=
  if path = "" then "."
  else
    let p := (path.data.reverse.dropWhile (fun c => c == '/')).reverse
    let p := (p.reverse.takeWhile (fun c => c != '/')).reverse
    if p = [] then "/" else String.mk p

/-- The backward scan of `filepath.Ext` over the reversed path; `acc` is the part of the
last element already passed. -/
def extScan : List Char → List Char → List Char
  | [], _ => []
  | c :: rest, acc =>
    if c = '/' then []
    else if c = '.' then '.' :: acc
    else extScan rest (c :: acc)

/-- Go `filepath.Ext`: the suffix of the last path element starting at its final dot,
empty when that element has no dot. -/
def filepathExt (path : String) : String :=
  String.mk (extScan path.data.reverse [])

/-- One step of `filepath.Clean` on the stack of kept elements (most recent first). -/
def cleanStep (rooted : Bool) (out : List String) (comp : String) : List String :=
  if comp = "" ∨ comp = "." then out
  else if comp = ".." then
    match out with
    | top :: below => if top = ".." then comp :: out else below
    | [] => if rooted then [] else [comp]
  else comp :: out

/-- Go `filepath.Clean`. -/
def filepathClean (path : String) : String :=
  let rooted := stringsHasPrefix path "/"
  let out := (stringsSplit path '/').foldl (cleanStep rooted) []
  let body := "/".intercalate out.reverse
  if rooted then "/" ++ body
  else if body = "" then "." else body

/-- Go `filepath.Join`: the non-empty elements joined by `/` and cleaned; the empty
string when there is none. -/
def filepathJoin (elem : List String) : String :=
  let parts := elem.filter (fun e => e != "")
  if parts = [] then "" else filepathClean ("/".intercalate parts)

/-- Go `strconv.Atoi`, value and error.  Accepts an optional sign followed by one or
more decimal digits, within the 64-bit range; a syntax error yields value 0, a range
error the nearest bound. -/
def atoi (s : String) : Int × Option String :=
  let cs := s.data
  let neg := cs.head? = some '-'
  let ds := if cs.head? = some '-' ∨ cs.head? = some '+' then cs.tail else cs
  if ds = [] ∨ ¬ ds.all Char.isDigit then (0, some ("strconv.Atoi: parsing " ++ s.quote ++ ": invalid syntax"))
  else
    let n : Nat := ds.foldl (fun n c => n * 10 + (c.toNat - 48)) 0
    let v : Int := if neg then -(n : Int) else (n : Int)
    if v < -(2 : Int) ^ 63 then (-(2 : Int) ^ 63, some ("strconv.Atoi: parsing " ++ s.quote ++ ": value out of range"))
    else if v > (2 : Int) ^ 63 - 1 then ((2 : Int) ^ 63 - 1, some ("strconv.Atoi: parsing " ++ s.quote ++ ": value out of range"))
    else (v, none)

/-! ## Binary floating point

A finite non-negative binary floating-point number is represented by a natural number
counted in a fixed power-of-two unit that is stated where the number is produced.
Rounding is IEEE 754 round-to-nearest, ties-to-even, to `p` significant bits
(`p = 53` for `float64`, `p = 24` for `float32`).  Exponent range is not modelled: the
values of this program stay far inside the normal range. -/

/-- Number of binary digits of `n`, by halving at most `fuel` times. -/
def bitLenFuel : Nat → Nat → Nat
  | 0, _ => 0
  | fuel + 1, n => if n = 0 then 0 else bitLenFuel fuel (n / 2) + 1

/-- Number of binary digits of `n` (`0` for `0`). -/
def bitLen (n : Nat) : Nat :=
  bitLenFuel n n

/-- Round the real number `n + ε` to `p` significant bits, nearest with ties to even,
where `ε = 0` when `sticky` is false and `0 < ε < 1` when it is true.  For a sticky
argument `n` must have more than `p` bits. -/
def roundSticky (p n : Nat) (sticky : Bool) : Nat :=
  if bitLen n ≤ p then n
  else
    let ulp := 2 ^ (bitLen n - p)
    let q := n / ulp
    let rem := n % ulp
    if 2 * rem < ulp then q * ulp
    else if 2 * rem = ulp ∧ sticky = false then (q + q % 2) * ulp
    else (q + 1) * ulp

/-- The height computation of `getMaiMaiPerCW` for a decoded image of size
`sizeX × sizeY` and box width `boxX`:
`ratio := float32(sizeY) / float32(sizeX)` and `int(ratio * float32(boxX))`.
The quotient is rounded to 24 bits in units of `2^-k`, the product likewise, and `int`
truncates.  For `sizeX = 0` Go leaves the conversion implementation-defined; the value
given here (`0`) is not used by any statement. -/
def scaledHeight (sizeY sizeX boxX : Nat) : Nat :=
  let fy := roundSticky 24 sizeY false
  let fx := roundSticky 24 sizeX false
  let k := bitLen fx + 26
  let num := fy * 2 ^ k
  let ratio := roundSticky 24 (num / fx) (decide (num % fx ≠ 0))
  let t := roundSticky 24 (ratio * roundSticky 24 boxX false) false
  t / 2 ^ k

/-! ## Data model -/

/-- Go `time.Time` of a file modification: an instant as seconds and nanoseconds
(file times carry no monotonic clock reading). -/
structure Time where
  sec : Int
  nsec : Nat
  deriving Repr, DecidableEq

/-- Go `t.After(u)`. -/
def Time.After (t u : Time) : Bool :=
  decide (t.sec > u.sec) || (decide (t.sec = u.sec) && decide (t.nsec > u.nsec))

/-- Go `t.Before(u)`. -/
def Time.Before (t u : Time) : Bool :=
  decide (t.sec < u.sec) || (decide (t.sec = u.sec) && decide (t.nsec < u.nsec))

/-- Go `image.Point`. -/
structure Point where
  X : Int
  Y : Int
  deriving Repr, DecidableEq

/-- Go `type Maimai struct`. -/
structure Maimai where
  File : String
  Href : String
  Time : Time
  Votes : Int
  ImageSize : Point
  Preview : String
  deriving Repr, DecidableEq

/-- Go `type Week struct`.  `Votes` is `none` for the nil slice. -/
structure Week where
  Maimais : List Maimai
  KW : Int
  IsCurrentWeek : Bool
  Votes : Option (List Vote)
  CanVote : Bool
  Template : String
  deriving Repr, DecidableEq

/-- Go `type CachedImage struct`. -/
structure CachedImage where
  Size : Point
  Preview : String
  deriving Repr, DecidableEq

/-- Go `os.FileInfo`, as far as the program reads it. -/
structure FileInfo where
  Name : String
  IsDir : Bool
  ModTime : Time
  deriving Repr, DecidableEq

/-- What the program observes of a decoded image: `img.Bounds().Size()` and the text of
its preview (20-pixel-wide Lanczos3 resize, JPEG-encoded, base64 without padding), which
the libraries compute from the pixels. -/
structure DecodedImage where
  X : Nat
  Y : Nat
  preview : String
  deriving Repr, DecidableEq

/-- The environment of a call: file system, libraries and run-time choices. -/
structure Env where
  /-- Go `filepath.Glob(pattern)`. -/
  glob : String → Result (List String)
  /-- Go `ioutil.ReadDir(dir)`. -/
  readDir : String → Result (List FileInfo)
  /-- Go `os.Stat(path)`: whether it returns without error. -/
  stat : String → Bool
  /-- Go `os.OpenFile(path, O_RDONLY, _)` and `os.Open(path)`: the error, if any. -/
  openErr : String → Option String
  /-- Go `image.Decode` of the opened file: the image, or `none` on a decode error. -/
  decode : String → Option DecodedImage
  /-- Go `csv.Reader.ReadAll` on the opened file, separator `:`. -/
  csvReadAll : String → Result (List (List String))
  /-- The order in which `range` visits the entries of a map. -/
  rangeOrder : VoteMap → List (String × Int)

/-- The mutable state shared between calls: the package variable `imgCache`, and two
traces that record each `os.OpenFile` and each `image.Decode` of an image file. -/
structure World where
  imgCache : GoMap CachedImage
  opened : List String
  decoded : List String
  deriving Repr, DecidableEq

/-! ## Aggregation -/

/-- Go `checkLock(name, weekFolder)`. -/
def checkLock (env : Env) (name : String) (weekFolder : String) : Bool :=
  let fileName := name ++ ".lock"
  let filePath := filepathJoin [weekFolder, fileName]
  env.stat filePath

/-- Lines 138-166 of `getMaiMaiPerCW`: the cached image of `imgPath`, from `imgCache`
or computed from the file. -/
def cachedImageOf (env : Env) (world : World) (imgPath : String) : CachedImage × World :=
  match world.imgCache.get? imgPath with
  | some cache => (cache, world)
  | none =>
    let cachedImage : CachedImage := { Size := { X := 330, Y := 330 }, Preview := "" }
    let world := { world with opened := world.opened ++ [imgPath] }
    match env.openErr imgPath with
    | none =>
      let world := { world with decoded := world.decoded ++ [imgPath] }
      match env.decode imgPath with
      | some img =>
        let cachedImage : CachedImage :=
          { Size := { X := cachedImage.Size.X,
                      Y := (scaledHeight img.Y img.X cachedImage.Size.X.toNat : Nat) },
            Preview := img.preview }
        (cachedImage, { world with imgCache := world.imgCache.set imgPath cachedImage })
      | none => (cachedImage, world)
    | some _ => (cachedImage, world)

/-- The loop `for _, img := range imgFiles` of `getMaiMaiPerCW` (lines 128-178);
`maimais` is `week.Maimais` so far. -/
def scanFiles (env : Env) (pathPfx w : String) :
    World → List Maimai → List FileInfo → Result (List Maimai) × World
  | world, maimais, [] => (.ok maimais, world)
  | world, maimais, img :: rest =>
    if img.IsDir then scanFiles env pathPfx w world maimais rest
    else
      match sliceFrom (filepathExt img.Name) 1 with
      | .panic m => (.panic m, world)
      | .err e => (.err e, world)
      | .ok ext =>
        if ext = "jpg" ∨ ext = "jpeg" ∨ ext = "gif" ∨ ext = "png" then
          if stringsHasPrefix img.Name "template." then scanFiles env pathPfx w world maimais rest
          else
            let imgPath := filepathJoin [w, img.Name]
            let r := cachedImageOf env world imgPath
            scanFiles env pathPfx w r.2
              (maimais ++ [{ File := img.Name,
                             Href := filepathJoin [pathPfx, filepathBase w, img.Name],
                             Time := img.ModTime,
                             Votes := 0,
                             ImageSize := r.1.Size,
                             Preview := r.1.Preview }]) rest
        else scanFiles env pathPfx w world maimais rest

/-- Go `getMaiMaiPerCW(pathPrefix, w)`. -/
def getMaiMaiPerCW (env : Env) (world : World) (pathPfx w : String) : Result Week × World :=
  match sliceFrom (filepathBase w) 3 with
  | .panic m => (.panic m, world)
  | .err e => (.err e, world)
  | .ok digits =>
    match atoi digits with
    | (_, some e) => (.err e, world)
    | (cw, none) =>
      match env.readDir w with
      | .panic m => (.panic m, world)
      | .err e => (.err e, world)
      | .ok imgFiles =>
        match scanFiles env pathPfx w world [] imgFiles with
        | (.panic m, world) => (.panic m, world)
        | (.err e, world) => (.err e, world)
        | (.ok maimais, world) =>
          (.ok { Maimais := sortSlice (fun a b => a.Time.After b.Time) maimais,
                 KW := cw, IsCurrentWeek := false, Votes := none, CanVote := false,
                 Template := "" }, world)

/-- Go `getVoteResults(weekDir, week)`; `none` is the nil slice. -/
def getVoteResults (env : Env) (weekDir : String) (week : Int) : Result (Option (List Vote)) :=
  let voteFilePath := filepathJoin [weekDir, "votes.txt"]
  if env.stat voteFilePath then
    match env.openErr voteFilePath with
    | some e => .err e
    | none =>
      match parseVotesFile env.rangeOrder (env.csvReadAll voteFilePath) with
      | .panic m => .panic m
      | .err e => .err e
      | .ok votes =>
        .ok (some (votes.map (fun v =>
          { v with Path := filepathJoin ["mm", "CW_" ++ toString week, v.FileName] })))
  else .ok none

/-- The body of the loop `for i, w := range weekFolders` of `getMaimais` (lines 75-100):
the week built for folder `w`. -/
def weekOfFolder (env : Env) (world : World) (w : String) : Result Week × World :=
  match getMaiMaiPerCW env world "mm" w with
  | (.panic m, world) => (.panic m, world)
  | (.err e, world) => (.err e, world)
  | (.ok week, world) =>
    let uploadLock := checkLock env "upload" w
    let voteLock := checkLock env "vote" w
    let week : Week :=
      match env.glob (filepathJoin [w, "template.*"]) with
      | .ok (t :: _) =>
        { week with Template := filepathJoin ["mm", filepathBase w, filepathBase t] }
      | _ => week
    match sliceFrom (filepathBase w) 3 with
    | .panic m => (.panic m, world)
    | .err e => (.err e, world)
    | .ok digits =>
      let cw := (atoi digits).1
      if voteLock && uploadLock then
        match getVoteResults env w cw with
        | .panic m => (.panic m, world)
        | .ok votes => (.ok { week with Votes := votes, CanVote := uploadLock && !voteLock }, world)
        | .err _ => (.ok { week with CanVote := uploadLock && !voteLock }, world)
      else (.ok { week with CanVote := uploadLock && !voteLock }, world)

/-- The loop `for i, w := range weekFolders` of `getMaimais`. -/
def weeksOfFolders (env : Env) : World → List String → Result (List Week) × World
  | world, [] => (.ok [], world)
  | world, w :: rest =>
    match weekOfFolder env world w with
    | (.panic m, world) => (.panic m, world)
    | (.err e, world) => (.err e, world)
    | (.ok week, world) =>
      match weeksOfFolders env world rest with
      | (.ok weeks, world) => (.ok (week :: weeks), world)
      | r => r

/-- Go `getMaimais(baseDir)`. -/
def getMaimais (env : Env) (world : World) (baseDir : String) : Result (List Week) × World :=
  match env.glob (filepathJoin [baseDir, "CW_*"]) with
  | .panic m => (.panic m, world)
  | .err e => (.err e, world)
  | .ok weekFolders =>
    match weeksOfFolders env world weekFolders with
    | (.ok weeks, world) => (.ok (sortSlice (fun a b => decide (a.KW > b.KW)) weeks), world)
    | r => r

/-! ## The per-creator view -/

/-- The choice identifiers of a ballot file: the non-first fields of all lines, in
order, with repetitions. -/
def choices (lines : List (List String)) : List String :=
  (lines.map List.tail).flatten

/-- The map `m` holds exactly the occurrence counts of the list `xs`. -/
def Tallies (m : VoteMap) (xs : List String) : Prop :=
  (m.map Prod.fst).Nodup ∧
    ∀ k, List.lookup k m = if xs.count k = 0 then none else some ((xs.count k : Nat) : Int)

/-- The records are in descending order of vote count: for positions `i < j` the count
at `i` is at least the count at `j`. -/
def DescendingByVotes (l : List Vote) : Prop :=
  ∀ (i j : Nat) (hij : i < j) (hj : j < l.length),
    (l.get ⟨j, hj⟩).Votes ≤ (l.get ⟨i, Nat.lt_trans hij hj⟩).Votes

/-- The relation between the lock files of a folder and the week built from it. -/
def LockRule (env : Env) (w : String) (week : Week) : Prop :=
  (week.CanVote = true ↔ (checkLock env "upload" w = true ∧ checkLock env "vote" w = false)) ∧
  (week.Votes ≠ none → (checkLock env "upload" w = true ∧ checkLock env "vote" w = true)) ∧
  (checkLock env "upload" w = false → week.CanVote = false ∧ week.Votes = none)

/-- The entries are in descending order of modification time: for positions `i < j`
the time at `i` is not before the time at `j`. -/
def DescendingByTime (l : List Maimai) : Prop :=
  ∀ (i j : Nat) (hij : i < j) (hj : j < l.length),
    (l.get ⟨i, Nat.lt_trans hij hj⟩).Time.Before (l.get ⟨j, hj⟩).Time = false

/-- The week was built by the loop body of `getMaimais` for folder `w`, and its number
is the integer parsed from the folder name after the first three characters. -/
def BuiltFrom (env : Env) (w : String) (week : Week) : Prop :=
  (∃ worldA worldB, weekOfFolder env worldA w = (.ok week, worldB)) ∧
  ∃ digits, sliceFrom (filepathBase w) 3 = .ok digits ∧ atoi digits = (week.KW, none)

/-- The ranked results of the week built for folder `w`: what `getVoteResults` returns
without error when both locks are present, and nothing otherwise. -/
def ResultsRule (env : Env) (w : String) (week : Week) : Prop :=
  week.Votes =
    if checkLock env "upload" w = true ∧ checkLock env "vote" w = true then
      match getVoteResults env w week.KW with
      | .ok votes => votes
      | _ => none
    else none

/-- A listed file is an image entry: it is not a directory, its extension (the part of
`filepath.Ext` after the dot) is one of `jpg`, `jpeg`, `gif`, `png`, and its name does
not begin with `template.`. -/
def eligible (f : FileInfo) : Bool :=
  !f.IsDir && ["jpg", "jpeg", "gif", "png"].contains ((filepathExt f.Name).drop 1) &&
    !stringsHasPrefix f.Name "template."

/-- The state at program start: nothing cached, nothing opened. -/
def emptyWorld : World :=
  { imgCache := [], opened := [], decoded := [] }

/-- A base directory `base` with four period folders.  `CW_1` has no lock and holds
three images (one of them undecodable, two with the same modification time), a text
file and a sub-directory; `CW_2` has `upload.lock`; `CW_3` has both locks and a ballot
file; `CW_4` has only `vote.lock` (and a ballot file). -/
def sampleEnv : Env where
  glob := fun pattern =>
    if pattern = "base/CW_*" then .ok ["base/CW_1", "base/CW_2", "base/CW_3", "base/CW_4"]
    else .ok []
  readDir := fun dir =>
    if dir = "base/CW_1" then
      .ok [{ Name := "alice_01.png", IsDir := false, ModTime := { sec := 100, nsec := 0 } },
           { Name := "bob_02.jpg", IsDir := false, ModTime := { sec := 300, nsec := 5 } },
           { Name := "carol.gif", IsDir := false, ModTime := { sec := 300, nsec := 5 } },
           { Name := "notes.txt", IsDir := false, ModTime := { sec := 400, nsec := 0 } },
           { Name := "old.png", IsDir := true, ModTime := { sec := 500, nsec := 0 } }]
    else .ok []
  stat := fun path =>
    ["base/CW_2/upload.lock", "base/CW_3/upload.lock", "base/CW_3/vote.lock",
     "base/CW_4/vote.lock", "base/CW_3/votes.txt", "base/CW_4/votes.txt"].contains path
  openErr := fun _ => none
  decode := fun path =>
    if path = "base/CW_1/alice_01.png" then some { X := 4, Y := 3, preview := "/9j/2wBD" }
    else if path = "base/CW_1/carol.gif" then some { X := 1920, Y := 1080, preview := "/9j/4AAQ" }
    else none
  csvReadAll := fun _ => .ok [["alice", "img1.jpg", "img2.jpg"], ["bob", "img1.jpg"]]
  rangeOrder := List.reverse

/-- The entries of `base/CW_1` as `getMaiMaiPerCW` lists them. -/
def sampleEntries : List Maimai :=
  [{ File := "bob_02.jpg", Href := "mm/CW_1/bob_02.jpg", Time := { sec := 300, nsec := 5 },
     Votes := 0, ImageSize := { X := 330, Y := 330 }, Preview := "" },
   { File := "carol.gif", Href := "mm/CW_1/carol.gif", Time := { sec := 300, nsec := 5 },
     Votes := 0, ImageSize := { X := 330, Y := 185 }, Preview := "/9j/4AAQ" },
   { File := "alice_01.png", Href := "mm/CW_1/alice_01.png", Time := { sec := 100, nsec := 0 },
     Votes := 0, ImageSize := { X := 330, Y := 247 }, Preview := "/9j/2wBD" }]

/-- The weeks `getMaimais` returns for the sample tree. -/
def sampleWeeks : List Week :=
  [{ Maimais := [], KW := 4, IsCurrentWeek := false, Votes := none, CanVote := false,
     Template := "" },
   { Maimais := [], KW := 3, IsCurrentWeek := false,
     Votes := some [{ FileName := "img1.jpg", Votes := 2, Path := "mm/CW_3/img1.jpg" },
                    { FileName := "img2.jpg", Votes := 1, Path := "mm/CW_3/img2.jpg" }],
     CanVote := false, Template := "" },
   { Maimais := [], KW := 2, IsCurrentWeek := false, Votes := none, CanVote := true,
     Template := "" },
   { Maimais := sampleEntries, KW := 1, IsCurrentWeek := false, Votes := none,
     CanVote := false, Template := "" }]

/-- The state after the first scan of the sample tree: the two decodable images are
cached, the undecodable one is not. -/
def sampleWorld : World :=
  { imgCache := [("base/CW_1/alice_01.png", { Size := { X := 330, Y := 247 }, Preview := "/9j/2wBD" }),
                 ("base/CW_1/carol.gif", { Size := { X := 330, Y := 185 }, Preview := "/9j/4AAQ" })],
    opened := ["base/CW_1/alice_01.png", "base/CW_1/bob_02.jpg", "base/CW_1/carol.gif"],
    decoded := ["base/CW_1/alice_01.png", "base/CW_1/bob_02.jpg", "base/CW_1/carol.gif"] }

theorem insertBy_perm {α : Type} (less : α → α → Bool) (x : α) (l : List α) :
    (insertBy less x l).Perm (x :: l) := by
  induction l with
  | nil => exact List.Perm.refl _
  | cons y ys ih =>
    unfold insertBy
    split
    · exact (List.Perm.cons y ih).trans (List.Perm.swap x y ys)
    · exact List.Perm.refl _

theorem sortSlice_perm {α : Type} (less : α → α → Bool) (l : List α) :
    (sortSlice less l).Perm l := by
  induction l with
  | nil => exact List.Perm.refl _
  | cons x xs ih =>
    show (insertBy less x (sortSlice less xs)).Perm (x :: xs)
    exact (insertBy_perm less x _).trans (List.Perm.cons x ih)

theorem insertBy_pairwise {α : Type} (less : α → α → Bool)
    (hasymm : ∀ a b, less a b = true → less b a = false)
    (htrans : ∀ a b c, less b a = false → less c b = false → less c a = false)
    (x : α) (l : List α) (hl : l.Pairwise (fun a b => less b a = false)) :
    (insertBy less x l).Pairwise (fun a b => less b a = false) := by
  induction l with
  | nil => simp [insertBy]
  | cons y ys ih =>
    unfold insertBy
    rw [List.pairwise_cons] at hl
    split
    · rename_i hyx
      rw [List.pairwise_cons]
      refine ⟨?_, ih hl.2⟩
      intro z hz
      rcases List.mem_cons.mp ((insertBy_perm less x ys).mem_iff.mp hz) with hz | hz
      · rw [hz]; exact hasymm y x hyx
      · exact hl.1 z hz
    · rename_i hyx
      have hyx' : less y x = false := by simpa using hyx
      rw [List.pairwise_cons]
      refine ⟨?_, List.pairwise_cons.mpr hl⟩
      intro z hz
      rcases List.mem_cons.mp hz with hz | hz
      · rw [hz]; exact hyx'
      · exact htrans x y z hyx' (hl.1 z hz)

theorem sortSlice_pairwise {α : Type} (less : α → α → Bool)
    (hasymm : ∀ a b, less a b = true → less b a = false)
    (htrans : ∀ a b c, less b a = false → less c b = false → less c a = false)
    (l : List α) : (sortSlice less l).Pairwise (fun a b => less b a = false) := by
  induction l with
  | nil => exact List.Pairwise.nil
  | cons x xs ih => exact insertBy_pairwise less hasymm htrans x _ ih

/-! ## Maps as association lists -/

theorem GoMap.lookup_set_self {β : Type} (m : GoMap β) (k : String) (v : β) :
    List.lookup k (GoMap.set m k v) = some v := by
  induction m with
  | nil => simp [GoMap.set, List.lookup]
  | cons p m ih =>
    obtain ⟨k', v'⟩ := p
    unfold GoMap.set
    by_cases h : k' = k
    · simp [h, List.lookup]
    · have hb : (k == k') = false := by simpa using fun e => h e.symm
      simp [h, List.lookup, hb, ih]

theorem GoMap.lookup_set_ne {β : Type} (m : GoMap β) (k k2 : String) (v : β) (hne : k2 ≠ k) :
    List.lookup k2 (GoMap.set m k v) = List.lookup k2 m := by
  induction m with
  | nil =>
    have hb : (k2 == k) = false := by simpa using hne
    simp [GoMap.set, List.lookup, hb]
  | cons p m ih =>
    obtain ⟨k', v'⟩ := p
    unfold GoMap.set
    by_cases h : k' = k
    · subst h
      have hb : (k2 == k') = false := by simpa using hne
      simp [List.lookup, hb]
    · simp only [h, if_false, List.lookup]
      rw [ih]

theorem GoMap.keys_set {β : Type} (m : GoMap β) (k : String) (v : β) :
    (GoMap.set m k v).map Prod.fst =
      if k ∈ m.map Prod.fst then m.map Prod.fst else m.map Prod.fst ++ [k] := by
  induction m with
  | nil => simp [GoMap.set]
  | cons p m ih =>
    obtain ⟨k', v'⟩ := p
    unfold GoMap.set
    by_cases h : k' = k
    · subst h; simp
    · have h2 : ¬ k = k' := fun e => h e.symm
      simp only [h, if_false, List.map_cons, List.mem_cons, h2, false_or, ih]
      split <;> simp

theorem GoMap.nodup_keys_set {β : Type} (m : GoMap β) (k : String) (v : β)
    (hm : (m.map Prod.fst).Nodup) : ((GoMap.set m k v).map Prod.fst).Nodup := by
  rw [GoMap.keys_set]
  split
  · exact hm
  · rename_i hk
    rw [List.nodup_append]
    refine ⟨hm, List.nodup_singleton k, ?_⟩
    intro a ha hb
    rw [List.mem_singleton] at hb
    exact hk (hb ▸ ha)

theorem GoMap.mem_keys_iff_lookup {β : Type} (m : GoMap β) (k : String) :
    k ∈ m.map Prod.fst ↔ List.lookup k m ≠ none := by
  induction m with
  | nil => simp [List.lookup]
  | cons p m ih =>
    obtain ⟨k', v'⟩ := p
    by_cases h : k = k'
    · subst h; simp [List.lookup]
    · have hb : (k == k') = false := by simpa using h
      simp [List.lookup, hb, h, ih]

theorem GoMap.lookup_of_mem {β : Type} (m : GoMap β) (hm : (m.map Prod.fst).Nodup)
    (k : String) (v : β) (h : (k, v) ∈ m) : List.lookup k m = some v := by
  induction m with
  | nil => simp at h
  | cons p m ih =>
    obtain ⟨k', v'⟩ := p
    rw [List.map_cons, List.nodup_cons] at hm
    rcases List.mem_cons.mp h with h | h
    · injection h with h1 h2
      subst h1; subst h2
      simp [List.lookup]
    · have hk : k ∈ m.map Prod.fst := List.mem_map.mpr ⟨(k, v), h, rfl⟩
      have hne : ¬ k = k' := fun e => hm.1 (e ▸ hk)
      have hb : (k == k') = false := by simpa using hne
      simp only [List.lookup, hb]
      exact ih hm.2 h

/-! ## The tally -/

theorem countFields_tallies (fields : List String) :
    ∀ (m : VoteMap) (xs : List String), Tallies m xs →
      Tallies (countFields m fields) (xs ++ fields) := by
  induction fields with
  | nil => intro m xs h; simpa [countFields] using h
  | cons f rest ih =>
    intro m xs h
    have step : ∀ v : Int, v = ((xs.count f : Nat) : Int) + 1 →
        Tallies (GoMap.set m f v) (xs ++ [f]) := by
      intro v hv
      refine ⟨GoMap.nodup_keys_set m f v h.1, ?_⟩
      intro k
      by_cases hk : k = f
      · subst hk
        rw [GoMap.lookup_set_self]
        simp [List.count_append, hv]
      · rw [GoMap.lookup_set_ne m f k v hk, h.2 k]
        have : List.count k [f] = 0 := by
          rw [List.count_eq_zero]; simpa using hk
        simp [List.count_append, this]
    have hrw : xs ++ f :: rest = (xs ++ [f]) ++ rest := by simp
    rw [hrw]
    unfold countFields
    have hl := h.2 f
    unfold GoMap.get?
    by_cases hc : xs.count f = 0
    · rw [hc] at hl
      simp only [if_true] at hl
      rw [hl]
      exact ih _ _ (step 1 (by simp [hc]))
    · simp only [hc, if_false] at hl
      rw [hl]
      exact ih _ _ (step _ rfl)

theorem countLines_tallies (lines : List (List String)) :
    ∀ (m : VoteMap) (xs : List String), Tallies m xs → (∀ l ∈ lines, l ≠ []) →
      ∃ votes, countLines m lines = .ok votes ∧
        Tallies votes (xs ++ choices lines) := by
  induction lines with
  | nil => intro m xs h _; exact ⟨m, rfl, by simpa [choices] using h⟩
  | cons l rest ih =>
    intro m xs h hne
    cases l with
    | nil => exact absurd rfl (hne [] (List.mem_cons_self _ _))
    | cons voter fields =>
      have h1 := countFields_tallies fields m xs h
      obtain ⟨votes, hv, ht⟩ := ih _ _ h1 (fun l hl => hne l (List.mem_cons_of_mem _ hl))
      refine ⟨votes, ?_, ?_⟩
      · simpa [countLines] using hv
      · simpa [choices, List.append_assoc] using ht

theorem sortVotes_fileNames (rangeOrder : VoteMap → List (String × Int)) (votes : VoteMap)
    (hperm : (rangeOrder votes).Perm votes) :
    ((sortVotes rangeOrder votes).map Vote.FileName).Perm (votes.map Prod.fst) := by
  have h1 : (sortVotes rangeOrder votes).map Vote.FileName =
      (sortSlice (fun a b => decide (a.2 > b.2)) (rangeOrder votes)).map Prod.fst := by
    simp [sortVotes, List.map_map, Function.comp_def]
  rw [h1]
  exact ((sortSlice_perm _ _).trans hperm).map _

theorem sortVotes_votes (rangeOrder : VoteMap → List (String × Int)) (votes : VoteMap)
    (v : Vote) (hv : v ∈ sortVotes rangeOrder votes) : v.Votes = votes.get v.FileName := by
  simp only [sortVotes, List.map_map, List.mem_map, Function.comp_def] at hv
  obtain ⟨kv, _, rfl⟩ := hv
  rfl

/-- C2.  For ballot lines with at least one field each (as `csv.Reader.ReadAll` yields
them) `parseVotesFile` returns a list of records in which every choice identifier that
occurs in a non-first field has exactly one record and no other identifier has one, and
each record's vote count is the number of occurrences of its identifier among the
non-first fields of all lines; this holds for every iteration order of the map. -/
theorem parseVotesFile_tally (rangeOrder : VoteMap → List (String × Int))
    (hperm : ∀ m, (rangeOrder m).Perm m) (lines : List (List String))
    (hne : ∀ l ∈ lines, l ≠ []) :
    ∃ votes, parseVotesFile rangeOrder (.ok lines) = .ok votes ∧
      (votes.map Vote.FileName).Nodup ∧
      (∀ k, k ∈ votes.map Vote.FileName ↔ k ∈ choices lines) ∧
      ∀ v ∈ votes, v.Votes = (((choices lines).count v.FileName : Nat) : Int) := by
  obtain ⟨m, hm, ht⟩ := countLines_tallies lines [] [] ⟨by simp, by simp [List.lookup]⟩ hne
  rw [List.nil_append] at ht
  have hp := sortVotes_fileNames rangeOrder m (hperm m)
  have hmem : ∀ k, k ∈ m.map Prod.fst ↔ k ∈ choices lines := by
    intro k
    rw [GoMap.mem_keys_iff_lookup, ht.2 k]
    by_cases hc : (choices lines).count k = 0
    · simp [hc, List.count_eq_zero.mp hc]
    · have : k ∈ choices lines := by
        by_contra hk; exact hc (List.count_eq_zero.mpr hk)
      simp [hc, this]
  refine ⟨sortVotes rangeOrder m, ?_, ?_, ?_, ?_⟩
  · simp [parseVotesFile, hm]
  · exact hp.nodup_iff.mpr ht.1
  · intro k; rw [hp.mem_iff]; exact hmem k
  · intro v hv
    rw [sortVotes_votes rangeOrder m v hv]
    have hk : v.FileName ∈ choices lines :=
      (hmem _).mp (hp.mem_iff.mp (List.mem_map.mpr ⟨v, hv, rfl⟩))
    have hc : (choices lines).count v.FileName ≠ 0 := by
      intro h0; exact (List.count_eq_zero.mp h0) hk
    unfold VoteMap.get
    rw [ht.2 v.FileName]
    simp [hc]

/-- Witness for C2: the ballot of the specification, `alice:img1.jpg:img2.jpg` and
`bob:img1.jpg`, with the map visited in reverse order. -/
theorem parseVotesFile_tally_witness :
    (∀ l ∈ [["alice", "img1.jpg", "img2.jpg"], ["bob", "img1.jpg"]], l ≠ ([] : List String)) ∧
    parseVotesFile List.reverse (.ok [["alice", "img1.jpg", "img2.jpg"], ["bob", "img1.jpg"]]) =
      .ok [{ FileName := "img1.jpg", Votes := 2, Path := "" },
           { FileName := "img2.jpg", Votes := 1, Path := "" }] ∧
    ∃ votes, parseVotesFile List.reverse
        (.ok [["alice", "img1.jpg", "img2.jpg"], ["bob", "img1.jpg"]]) = .ok votes ∧
      (votes.map Vote.FileName).Nodup ∧
      (∀ k, k ∈ votes.map Vote.FileName ↔
        k ∈ choices [["alice", "img1.jpg", "img2.jpg"], ["bob", "img1.jpg"]]) ∧
      ∀ v ∈ votes, v.Votes =
        (((choices [["alice", "img1.jpg", "img2.jpg"], ["bob", "img1.jpg"]]).count
          v.FileName : Nat) : Int) :=
  ⟨by decide, by decide,
    parseVotesFile_tally List.reverse (fun m => List.reverse_perm m) _ (by decide)⟩

theorem countLines_ok_nonempty (lines : List (List String)) :
    ∀ (m votes : VoteMap), countLines m lines = .ok votes → ∀ l ∈ lines, l ≠ [] := by
  induction lines with
  | nil => intro m votes _ l hl; simp at hl
  | cons l rest ih =>
    intro m votes h l' hl'
    cases l with
    | nil => simp [countLines] at h
    | cons voter fields =>
      rcases List.mem_cons.mp hl' with e | e
      · rw [e]; simp
      · exact ih _ _ (by simpa [countLines] using h) l' e

theorem sortVotes_pairwise (rangeOrder : VoteMap → List (String × Int)) (votes : VoteMap)
    (hnd : (votes.map Prod.fst).Nodup) (hperm : (rangeOrder votes).Perm votes) :
    (sortVotes rangeOrder votes).Pairwise (fun a b => b.Votes ≤ a.Votes) := by
  have hs := sortSlice_pairwise (fun (a b : String × Int) => decide (a.2 > b.2))
    (by intro a b h; simp at h ⊢; omega)
    (by intro a b c h1 h2; simp at h1 h2 ⊢; omega) (rangeOrder votes)
  have hmem : ∀ kv ∈ sortSlice (fun (a b : String × Int) => decide (a.2 > b.2))
      (rangeOrder votes), votes.get kv.1 = kv.2 := by
    intro kv hkv
    have : kv ∈ votes := hperm.mem_iff.mp ((sortSlice_perm _ _).mem_iff.mp hkv)
    unfold VoteMap.get
    rw [GoMap.lookup_of_mem votes hnd kv.1 kv.2 this]
    rfl
  simp only [sortVotes, List.map_map]
  rw [List.pairwise_map]
  refine List.Pairwise.imp_of_mem ?_ hs
  intro a b ha hb hab
  simp only [Function.comp_def]
  rw [hmem a ha, hmem b hb]
  simpa using hab

theorem descending_of_pairwise (l : List Vote)
    (h : l.Pairwise (fun a b => b.Votes ≤ a.Votes)) : DescendingByVotes l := by
  intro i j hij hj
  exact List.pairwise_iff_get.mp h ⟨i, Nat.lt_trans hij hj⟩ ⟨j, hj⟩ hij

/-- C3.  Whatever order the entries of the map are visited in, the sequence returned by
`sortVotes` for a map (distinct keys) is in descending order of vote count, and so is
every sequence returned by `parseVotesFile`. -/
theorem sortVotes_descending (rangeOrder : VoteMap → List (String × Int))
    (hperm : ∀ m, (rangeOrder m).Perm m) :
    (∀ votes : VoteMap, (votes.map Prod.fst).Nodup →
      DescendingByVotes (sortVotes rangeOrder votes)) ∧
    (∀ readAll out, parseVotesFile rangeOrder readAll = .ok out → DescendingByVotes out) := by
  refine ⟨fun votes hnd =>
    descending_of_pairwise _ (sortVotes_pairwise rangeOrder votes hnd (hperm votes)), ?_⟩
  intro readAll out h
  cases readAll with
  | err e => simp [parseVotesFile] at h
  | panic m => simp [parseVotesFile] at h
  | ok lines =>
    simp only [parseVotesFile] at h
    cases hc : countLines [] lines with
    | err e => rw [hc] at h; simp at h
    | panic m => rw [hc] at h; simp at h
    | ok votes =>
      rw [hc] at h
      injection h with h
      subst h
      obtain ⟨votes2, hv, ht⟩ := countLines_tallies lines [] []
        ⟨by simp, by simp [List.lookup]⟩ (countLines_ok_nonempty lines [] votes hc)
      rw [hc] at hv
      injection hv with hv
      subst hv
      exact descending_of_pairwise _ (sortVotes_pairwise rangeOrder votes ht.1 (hperm votes))

/-- Witness for C3: a map with a tie, visited in reverse order. -/
theorem sortVotes_descending_witness :
    (∀ m : VoteMap, (List.reverse m).Perm m) ∧
    sortVotes List.reverse [("a.png", 1), ("b.png", 3), ("c.png", 1), ("d.png", 2)] =
      [{ FileName := "b.png", Votes := 3, Path := "" },
       { FileName := "d.png", Votes := 2, Path := "" },
       { FileName := "c.png", Votes := 1, Path := "" },
       { FileName := "a.png", Votes := 1, Path := "" }] ∧
    DescendingByVotes
      (sortVotes List.reverse [("a.png", 1), ("b.png", 3), ("c.png", 1), ("d.png", 2)]) :=
  ⟨fun m => List.reverse_perm m, by decide,
    (sortVotes_descending List.reverse (fun m => List.reverse_perm m)).1 _ (by decide)⟩

/-! ## Lock flags -/

theorem getMaiMaiPerCW_fresh (env : Env) (world : World) (pathPfx w : String) (week : Week)
    (world2 : World) (h : getMaiMaiPerCW env world pathPfx w = (.ok week, world2)) :
    week.Votes = none ∧ week.CanVote = false ∧
    ∃ digits, sliceFrom (filepathBase w) 3 = .ok digits ∧ atoi digits = (week.KW, none) := by
  unfold getMaiMaiPerCW at h
  split at h
  · simp at h
  · simp at h
  · rename_i digits hd
    split at h
    · simp at h
    · rename_i cw ha
      split at h
      · simp at h
      · simp at h
      · split at h
        · simp at h
        · simp at h
        · simp only [Prod.mk.injEq, Result.ok.injEq] at h
          rw [← h.1]
          exact ⟨rfl, rfl, digits, hd, ha⟩

theorem weekOfFolder_rules (env : Env) (world : World) (w : String) (week : Week)
    (world2 : World) (h : weekOfFolder env world w = (.ok week, world2)) :
    BuiltFrom env w week ∧ LockRule env w week ∧ ResultsRule env w week := by
  have hself := h
  unfold weekOfFolder at h
  split at h
  · simp at h
  · simp at h
  · rename_i week0 world1 hg
    obtain ⟨hf1, hf2, digits, hd, ha⟩ := getMaiMaiPerCW_fresh env world "mm" w week0 world1 hg
    have hT : (match env.glob (filepathJoin [w, "template.*"]) with
        | .ok (t :: _) =>
          { week0 with Template := filepathJoin ["mm", filepathBase w, filepathBase t] }
        | _ => week0).Votes = none := by
      split <;> exact hf1
    have hK : (match env.glob (filepathJoin [w, "template.*"]) with
        | .ok (t :: _) =>
          { week0 with Template := filepathJoin ["mm", filepathBase w, filepathBase t] }
        | _ => week0).KW = week0.KW := by
      split <;> rfl
    simp only at h
    generalize (match env.glob (filepathJoin [w, "template.*"]) with
        | .ok (t :: _) =>
          { week0 with Template := filepathJoin ["mm", filepathBase w, filepathBase t] }
        | _ => week0) = wk at h hT hK
    rw [hd] at h
    simp only [ha] at h
    have hbuilt : week.KW = week0.KW → BuiltFrom env w week := by
      intro hk2
      refine ⟨⟨world, world2, hself⟩, digits, hd, ?_⟩
      rw [hk2]; exact ha
    cases hu : checkLock env "upload" w <;> cases hv : checkLock env "vote" w <;>
      simp only [hu, hv, Bool.and_self, Bool.and_false, Bool.false_and, Bool.and_true,
        if_true, if_false, Bool.not_true, Bool.not_false, Prod.mk.injEq, Result.ok.injEq,
        Bool.false_eq_true] at h
    · refine ⟨hbuilt (by rw [← h.1]; exact hK), ?_, ?_⟩
      · rw [← h.1]; simp [LockRule, hu, hv, hT]
      · rw [← h.1]; simp [ResultsRule, hu, hv, hT]
    · refine ⟨hbuilt (by rw [← h.1]; exact hK), ?_, ?_⟩
      · rw [← h.1]; simp [LockRule, hu, hv, hT]
      · rw [← h.1]; simp [ResultsRule, hu, hv, hT]
    · refine ⟨hbuilt (by rw [← h.1]; exact hK), ?_, ?_⟩
      · rw [← h.1]; simp [LockRule, hu, hv, hT]
      · rw [← h.1]; simp [ResultsRule, hu, hv, hT]
    · split at h
      · simp at h
      · rename_i votes hvr
        simp only [Prod.mk.injEq, Result.ok.injEq] at h
        refine ⟨hbuilt (by rw [← h.1]; exact hK), ?_, ?_⟩
        · rw [← h.1]; simp [LockRule, hu, hv]
        · rw [← h.1]; simp [ResultsRule, hu, hv, hK, hvr]
      · rename_i e hvr
        simp only [Prod.mk.injEq, Result.ok.injEq] at h
        refine ⟨hbuilt (by rw [← h.1]; exact hK), ?_, ?_⟩
        · rw [← h.1]; simp [LockRule, hu, hv, hT]
        · rw [← h.1]; simp [ResultsRule, hu, hv, hK, hvr, hT]

theorem weeksOfFolders_rules (env : Env) (folders : List String) :
    ∀ (world : World) (weeks : List Week) (world2 : World),
      weeksOfFolders env world folders = (.ok weeks, world2) →
      List.Forall₂
        (fun w week => BuiltFrom env w week ∧ LockRule env w week ∧ ResultsRule env w week)
        folders weeks := by
  induction folders with
  | nil =>
    intro world weeks world2 h
    simp only [weeksOfFolders, Prod.mk.injEq, Result.ok.injEq] at h
    rw [← h.1]; exact List.Forall₂.nil
  | cons w rest ih =>
    intro world weeks world2 h
    unfold weeksOfFolders at h
    split at h
    · simp at h
    · simp at h
    · rename_i week world1 hw
      split at h
      · rename_i weeks1 world3 hr
        simp only [Prod.mk.injEq, Result.ok.injEq] at h
        rw [← h.1]
        exact List.Forall₂.cons (weekOfFolder_rules env world w week world1 hw)
          (ih world1 weeks1 world3 hr)
      · rename_i r hr
        rw [h] at hr
        exact absurd rfl (hr weeks world2)

/-- C1.  Whenever `getMaimais` returns, its weeks are the weeks built by the loop for the
globbed folders, in that order, then sorted by number; and for each folder `w` and the
week built from it (whose number is the one parsed from the name of `w`): `CanVote` is
true if and only if `upload.lock` is present in `w` and `vote.lock` is absent; ranked
results (`Votes`) are attached only when both locks are present in `w`, and are then
what `getVoteResults` returns for `w`; and without `upload.lock` (whether or not
`vote.lock` is present) `CanVote` is false and no results are attached. -/
theorem getMaimais_lock_flags (env : Env) (world : World) (baseDir : String)
    (weeks : List Week) (world2 : World)
    (h : getMaimais env world baseDir = (.ok weeks, world2)) :
    ∃ folders built, env.glob (filepathJoin [baseDir, "CW_*"]) = .ok folders ∧
      weeksOfFolders env world folders = (.ok built, world2) ∧
      weeks = sortSlice (fun a b => decide (a.KW > b.KW)) built ∧
      List.Forall₂
        (fun w week => BuiltFrom env w week ∧ LockRule env w week ∧ ResultsRule env w week)
        folders built := by
  unfold getMaimais at h
  split at h
  · simp at h
  · simp at h
  · rename_i folders hg
    split at h
    · rename_i built world3 hb
      simp only [Prod.mk.injEq, Result.ok.injEq] at h
      obtain ⟨h1, h2⟩ := h
      subst h2
      exact ⟨folders, built, hg, hb, h1.symm,
        weeksOfFolders_rules env folders world built world3 hb⟩
    · rename_i r hr
      rw [h] at hr
      exact absurd rfl (hr weeks world2)

/-- Witness for C1: the sample tree has one folder for each of the four combinations of
the two locks. -/
theorem getMaimais_lock_flags_witness :
    getMaimais sampleEnv emptyWorld "base" = (.ok sampleWeeks, sampleWorld) ∧
    ∃ folders built, sampleEnv.glob (filepathJoin ["base", "CW_*"]) = .ok folders ∧
      weeksOfFolders sampleEnv emptyWorld folders = (.ok built, sampleWorld) ∧
      sampleWeeks = sortSlice (fun a b => decide (a.KW > b.KW)) built ∧
      List.Forall₂
        (fun w week => BuiltFrom sampleEnv w week ∧ LockRule sampleEnv w week ∧
          ResultsRule sampleEnv w week)
        folders built :=
  ⟨rfl, getMaimais_lock_flags sampleEnv emptyWorld "base" sampleWeeks sampleWorld rfl⟩

/-! ## Order of the entries -/

theorem Time.before_eq_after (t u : Time) : t.Before u = u.After t := by
  unfold Time.Before Time.After
  have h1 : decide (t.sec < u.sec) = decide (u.sec > t.sec) := rfl
  have h2 : decide (t.nsec < u.nsec) = decide (u.nsec > t.nsec) := rfl
  have h3 : decide (t.sec = u.sec) = decide (u.sec = t.sec) := by
    by_cases h : t.sec = u.sec
    · simp [h]
    · have : ¬ u.sec = t.sec := fun e => h e.symm
      simp [h, this]
  rw [h1, h2, h3]

theorem Time.after_asymm (t u : Time) (h : t.After u = true) : u.After t = false := by
  unfold Time.After at h ⊢
  simp only [Bool.or_eq_true, Bool.and_eq_true, decide_eq_true_eq] at h
  simp only [Bool.or_eq_false_iff, Bool.and_eq_false_iff, decide_eq_false_iff_not]
  omega

theorem Time.after_negtrans (a b c : Time) (h1 : b.After a = false) (h2 : c.After b = false) :
    c.After a = false := by
  unfold Time.After at h1 h2 ⊢
  simp only [Bool.or_eq_false_iff, Bool.and_eq_false_iff, decide_eq_false_iff_not] at h1 h2 ⊢
  omega

/-- C4.  Whenever `getMaiMaiPerCW` returns a week, whatever the modification times of
the listed files are (equal ones included), the entries of the week are in descending
order of modification time: for positions `i < j`, the time of entry `i` is not before
the time of entry `j`. -/
theorem getMaiMaiPerCW_descending (env : Env) (world : World) (pathPfx w : String)
    (week : Week) (world2 : World)
    (h : getMaiMaiPerCW env world pathPfx w = (.ok week, world2)) :
    DescendingByTime week.Maimais := by
  unfold getMaiMaiPerCW at h
  split at h
  · simp at h
  · simp at h
  · split at h
    · simp at h
    · split at h
      · simp at h
      · simp at h
      · split at h
        · simp at h
        · simp at h
        · rename_i maimais world3 hs
          simp only [Prod.mk.injEq, Result.ok.injEq] at h
          rw [← h.1]
          have hp := sortSlice_pairwise (fun (a b : Maimai) => a.Time.After b.Time)
            (fun a b hab => Time.after_asymm _ _ hab)
            (fun a b c h1 h2 => Time.after_negtrans _ _ _ h1 h2) maimais
          intro i j hij hj
          rw [Time.before_eq_after]
          exact List.pairwise_iff_get.mp hp ⟨i, Nat.lt_trans hij hj⟩ ⟨j, hj⟩ hij

/-- Witness for C4: folder `CW_1` of the sample tree, listed in name order, with two
equal modification times. -/
theorem getMaiMaiPerCW_descending_witness :
    getMaiMaiPerCW sampleEnv emptyWorld "mm" "base/CW_1" =
      (.ok { Maimais := sampleEntries, KW := 1, IsCurrentWeek := false, Votes := none,
             CanVote := false, Template := "" }, sampleWorld) ∧
    DescendingByTime sampleEntries :=
  ⟨rfl, getMaiMaiPerCW_descending sampleEnv emptyWorld "mm" "base/CW_1"
    { Maimais := sampleEntries, KW := 1, IsCurrentWeek := false, Votes := none,
      CanVote := false, Template := "" } sampleWorld rfl⟩

/-! ## The thumbnail cache -/

/-- What the scan does with the first listed file, when it goes on: an eligible file
gets an entry built from `cachedImageOf`, any other file is skipped. -/
theorem scanFiles_cons_ok (env : Env) (pathPfx w : String) (img : FileInfo)
    (rest : List FileInfo) (world : World) (acc ms : List Maimai) (world2 : World)
    (h : scanFiles env pathPfx w world acc (img :: rest) = (.ok ms, world2)) :
    (eligible img = true ∧
      scanFiles env pathPfx w (cachedImageOf env world (filepathJoin [w, img.Name])).2
        (acc ++ [{ File := img.Name,
                   Href := filepathJoin [pathPfx, filepathBase w, img.Name],
                   Time := img.ModTime, Votes := 0,
                   ImageSize := (cachedImageOf env world (filepathJoin [w, img.Name])).1.Size,
                   Preview := (cachedImageOf env world (filepathJoin [w, img.Name])).1.Preview }])
        rest = (.ok ms, world2)) ∨
    (eligible img = false ∧ scanFiles env pathPfx w world acc rest = (.ok ms, world2)) := by
  unfold scanFiles at h
  split at h
  · rename_i hdir
    right
    exact ⟨by simp [eligible, hdir], h⟩
  · rename_i hdir
    split at h
    · simp at h
    · simp at h
    · rename_i ext hext
      have hext2 : (filepathExt img.Name).drop 1 = ext := by
        unfold sliceFrom at hext
        split at hext
        · simpa using hext
        · simp at hext
      split at h
      · rename_i hel
        split at h
        · rename_i htp
          right
          exact ⟨by simp [eligible, htp], h⟩
        · rename_i htp
          left
          refine ⟨?_, h⟩
          have hdir' : img.IsDir = false := by simpa using hdir
          have htp' : stringsHasPrefix img.Name "template." = false := by simpa using htp
          simp only [eligible, hdir', htp', hext2, Bool.not_false, Bool.true_and, Bool.and_true]
          rcases hel with e | e | e | e <;> rw [e] <;> decide
      · rename_i hel
        right
        refine ⟨?_, h⟩
        have : ["jpg", "jpeg", "gif", "png"].contains ext = false := by
          simp only [List.contains_eq_any_beq, List.any_cons, List.any_nil, Bool.or_false,
            Bool.or_eq_false_iff, beq_eq_false_iff_ne, ne_eq]
          refine ⟨?_, ?_, ?_, ?_⟩ <;> intro e <;> apply hel <;> simp [e]
        simp only [eligible, hext2, this, Bool.and_false, Bool.false_and]

theorem string_eq_empty_of_length (s : String) (h : s.length = 0) : s = "" := by
  cases s with
  | mk data =>
    simp only [String.length, List.length_eq_zero] at h
    rw [h]

theorem scanFiles_panics (env : Env) (pathPfx w : String) (files : List FileInfo) :
    ∀ (world : World) (acc : List Maimai),
      (∃ f ∈ files, f.IsDir = false ∧ filepathExt f.Name = "") →
      ∃ world2, scanFiles env pathPfx w world acc files =
        (.panic "runtime error: slice bounds out of range [1:0]", world2) := by
  induction files with
  | nil => intro world acc h; obtain ⟨f, hf, _⟩ := h; simp at hf
  | cons img rest ih =>
    intro world acc h
    by_cases hbad : img.IsDir = false ∧ filepathExt img.Name = ""
    · refine ⟨world, ?_⟩
      unfold scanFiles
      simp [hbad.1, hbad.2, sliceFrom]
      decide
    · have hrest : ∃ f ∈ rest, f.IsDir = false ∧ filepathExt f.Name = "" := by
        obtain ⟨f, hf, hp⟩ := h
        rcases List.mem_cons.mp hf with e | e
        · subst e; exact absurd hp hbad
        · exact ⟨f, e, hp⟩
      unfold scanFiles
      split
      · exact ih _ _ hrest
      · rename_i hdir
        split
        · rename_i m hm
          refine ⟨world, ?_⟩
          have hne : filepathExt img.Name = "" := by
            unfold sliceFrom at hm
            split at hm
            · simp at hm
            · rename_i hlen
              have : (filepathExt img.Name).length = 0 := by omega
              exact string_eq_empty_of_length _ this
          exact absurd ⟨by simpa using hdir, hne⟩ hbad
        · rename_i e he
          unfold sliceFrom at he
          split at he <;> simp at he
        · split
          · split
            · exact ih _ _ hrest
            · exact ih _ _ hrest
          · exact ih _ _ hrest

/-- Apart from the panic, the scan does what is expected of it: when it returns, the
entries are exactly the eligible files of the listing, in listing order. -/
theorem scanFiles_files (env : Env) (pathPfx w : String) (files : List FileInfo) :
    ∀ (world : World) (acc ms : List Maimai) (world2 : World),
      scanFiles env pathPfx w world acc files = (.ok ms, world2) →
      ms.map Maimai.File = acc.map Maimai.File ++ (files.filter eligible).map FileInfo.Name := by
  induction files with
  | nil =>
    intro world acc ms world2 h
    simp only [scanFiles, Prod.mk.injEq, Result.ok.injEq] at h
    rw [← h.1]; simp
  | cons img rest ih =>
    intro world acc ms world2 h
    rcases scanFiles_cons_ok env pathPfx w img rest world acc ms world2 h with ⟨he, hs⟩ | ⟨he, hs⟩
    · rw [ih _ _ _ _ hs]
      simp [List.filter_cons, he]
    · rw [ih _ _ _ _ hs]
      simp [List.filter_cons, he]

end Mmotcw
